import Mathlib

/-!
# Verification of the memory-simulator core

Shallow embedding of the two engines of the `memory-simulator` repository:

* the dynamic block allocator (`src/unnamed/part_004`, header
  `src/unnamed/part_001`): a doubly-linked, address-ordered chain of
  `MemoryBlock` records, three placement strategies, splitting, coalescing,
  and derived statistics;
* the multilevel set-associative cache (`src/src/cache/cache.cpp`, header
  `src/include/cache.h`): per-level associative sets with FIFO/LRU
  replacement, dirty-bit write-back accounting, and latency accumulation
  across the hierarchy.

The doubly-linked chain is embedded as a `List MemoryBlock` in address
order (pointer identity becomes the index in the list); C++ `size_t`
becomes `Nat`, `int` becomes `Int`, `double` (used only for the
fragmentation percentage) becomes `ℚ`.  Fallible operations return the
branch the C++ code takes (each branch is observable in the source through
its distinct error message).
-/

/-! ## Allocator: data model (`memory_block.h`, `allocator.h`) -/

/-- The `enum class AllocationStrategy` from `allocator.h`. -/
inductive AllocationStrategy
  | FIRST_FIT
  | BEST_FIT
  | WORST_FIT
deriving DecidableEq, Repr

/-- The `struct MemoryBlock` from `memory_block.h`: one node of the chain.
The `next`/`prev` pointers are represented by list adjacency. -/
structure MemoryBlock where
  address : Nat
  size : Nat
  is_free : Bool
  block_id : Int
deriving DecidableEq, Repr

instance : Inhabited MemoryBlock := ⟨⟨0, 0, true, -1⟩⟩

/-- The `struct AllocationStats` from `allocator.h`. -/
structure AllocationStats where
  total_memory : Nat
  used_memory : Nat
  free_memory : Nat
  num_allocations : Nat
  num_deallocations : Nat
  allocation_failures : Nat
  external_fragmentation : ℚ
deriving DecidableEq, Repr

/-- The `AllocationStats()` default constructor: everything zero. -/
def AllocationStats.init : AllocationStats := ⟨0, 0, 0, 0, 0, 0, 0⟩

/-- The state of `class Allocator`: the chain (`head`), in address order,
plus the scalar fields. `blocks = []` is `head == nullptr`. -/
structure Allocator where
  blocks : List MemoryBlock
  total_size : Nat
  strategy : AllocationStrategy
  next_block_id : Int
  stats : AllocationStats
deriving DecidableEq, Repr

/-- The `Allocator()` constructor. -/
def Allocator.initState : Allocator :=
  ⟨[], 0, AllocationStrategy.FIRST_FIT, 1, AllocationStats.init⟩

/-- Branch taken by `Allocator::allocate` (each branch prints a distinct
message in the source). -/
inductive AllocResult
  | ok (id : Int)
  | notInitialized
  | invalidSize
  | outOfMemory
deriving DecidableEq, Repr

/-! ## Allocator: operations (`part_004`) -/

/-- The body of `Allocator::initMemory`: discard the chain, create one free block
`[0,size)`, reset id counter and stats; returns `true`. -/
def Allocator.initMemory (a : Allocator) (size : Nat) : Allocator × Bool :=
  ({ a with
      blocks := [⟨0, size, true, -1⟩]
      total_size := size
      next_block_id := 1
      stats := { AllocationStats.init with total_memory := size, free_memory := size } },
   true)

/-- The body of `Allocator::setStrategy(AllocationStrategy)`. -/
def Allocator.setStrategy (a : Allocator) (strat : AllocationStrategy) : Allocator :=
  { a with strategy := strat }

/-- The body of `Allocator::isInitialized`: `head != nullptr`. -/
def Allocator.isInitialized (a : Allocator) : Bool :=
  !a.blocks.isEmpty

/-- Loop of `Allocator::firstFit`: first chain node (by index, i.e. address
order) that is free with `size >= size`. Returns the node's index. -/
def firstFitGo (size : Nat) : List MemoryBlock → Nat → Option Nat
  | [], _ => none
  | b :: rest, i =>
      if b.is_free = true ∧ size ≤ b.size then some i
      else firstFitGo size rest (i + 1)

/-- The result of `Allocator::firstFit` (the returned pointer, as a chain index). -/
def firstFitIdx (blocks : List MemoryBlock) (size : Nat) : Option Nat :=
  firstFitGo size blocks 0

/-- The `best`-pointer update of `Allocator::bestFit` for a fitting
candidate at index `i` of size `sz`: taken when `best` is null or the
candidate is strictly smaller (`current->size < best->size`), so ties
keep the first encountered. -/
def chooseSmaller (i sz : Nat) : Option (Nat × Nat) → Option (Nat × Nat)
  | none => some (i, sz)
  | some p => if sz < p.2 then some (i, sz) else some p

/-- The `worst`-pointer update of `Allocator::worstFit` for a fitting
candidate (`current->size > worst->size`). -/
def chooseLarger (i sz : Nat) : Option (Nat × Nat) → Option (Nat × Nat)
  | none => some (i, sz)
  | some p => if p.2 < sz then some (i, sz) else some p

/-- Loop of `Allocator::bestFit`: accumulator holds the current best
node's index and size (the `best` pointer). -/
def bestFitGo (size : Nat) : List MemoryBlock → Nat → Option (Nat × Nat) → Option (Nat × Nat)
  | [], _, best => best
  | b :: rest, i, best =>
      if b.is_free = true ∧ size ≤ b.size then
        bestFitGo size rest (i + 1) (chooseSmaller i b.size best)
      else bestFitGo size rest (i + 1) best

/-- The result of `Allocator::bestFit` (the returned pointer, as a chain index). -/
def bestFitIdx (blocks : List MemoryBlock) (size : Nat) : Option Nat :=
  (bestFitGo size blocks 0 none).map Prod.fst

/-- Loop of `Allocator::worstFit`: like `bestFit` with the comparison
reversed. -/
def worstFitGo (size : Nat) : List MemoryBlock → Nat → Option (Nat × Nat) → Option (Nat × Nat)
  | [], _, best => best
  | b :: rest, i, best =>
      if b.is_free = true ∧ size ≤ b.size then
        worstFitGo size rest (i + 1) (chooseLarger i b.size best)
      else worstFitGo size rest (i + 1) best

/-- The result of `Allocator::worstFit` (the returned pointer, as a chain index). -/
def worstFitIdx (blocks : List MemoryBlock) (size : Nat) : Option Nat :=
  (worstFitGo size blocks 0 none).map Prod.fst

/-- The body of `Allocator::findFreeBlock`: dispatch on the active strategy. -/
def findFreeBlockIdx (blocks : List MemoryBlock) (strategy : AllocationStrategy)
    (size : Nat) : Option Nat :=
  match strategy with
  | .FIRST_FIT => firstFitIdx blocks size
  | .BEST_FIT => bestFitIdx blocks size
  | .WORST_FIT => worstFitIdx blocks size

/-- Sizes of the free chain nodes, in address order (the values the stats
loop of `Allocator::updateStats` accumulates into `free_memory`,
`total_free` and `free_block_count`). -/
def freeSizes (blocks : List MemoryBlock) : List Nat :=
  (blocks.filter fun b => b.is_free).map MemoryBlock.size

/-- Sizes of the used chain nodes (accumulated into `used_memory`). -/
def usedSizes (blocks : List MemoryBlock) : List Nat :=
  (blocks.filter fun b => !b.is_free).map MemoryBlock.size

/-- The `largest_free` accumulator of `Allocator::updateStats`: starts at
`0`, updated whenever a free block is strictly larger. -/
def largestFree (blocks : List MemoryBlock) : Nat :=
  (freeSizes blocks).foldr max 0

/-- The `external_fragmentation` value `Allocator::updateStats` computes:
`(1 - largest_free/total_free) * 100` guarded by
`total_free > 0 && free_block_count > 1`, else `0`. -/
def fragOf (blocks : List MemoryBlock) : ℚ :=
  if 0 < (freeSizes blocks).sum ∧ 1 < (freeSizes blocks).length then
    (1 - (largestFree blocks : ℚ) / ((freeSizes blocks).sum : ℚ)) * 100
  else 0

/-- The body of `Allocator::updateStats`: recompute `used_memory`, `free_memory` and
`external_fragmentation` from the chain. -/
def Allocator.updateStats (a : Allocator) : Allocator :=
  { a with
      stats := { a.stats with
        used_memory := (usedSizes a.blocks).sum
        free_memory := (freeSizes a.blocks).sum
        external_fragmentation := fragOf a.blocks } }

/-- The body of `Allocator::allocate`: the four branches of the source, with the
split (`block->size > size`) inserting the free remainder right after the
shrunk, now-used block. -/
def Allocator.allocate (a : Allocator) (size : Nat) : Allocator × AllocResult :=
  if a.blocks = [] then (a, .notInitialized)
  else if size = 0 then (a, .invalidSize)
  else
    match findFreeBlockIdx a.blocks a.strategy size with
    | none =>
        ({ a with stats := { a.stats with
              allocation_failures := a.stats.allocation_failures + 1 } },
         .outOfMemory)
    | some i =>
        let b := a.blocks.getD i default
        let id := a.next_block_id
        let blocks' :=
          if size < b.size then
            a.blocks.take i ++
              { b with size := size, is_free := false, block_id := id } ::
              (⟨b.address + size, b.size - size, true, -1⟩ : MemoryBlock) ::
              a.blocks.drop (i + 1)
          else
            a.blocks.set i { b with is_free := false, block_id := id }
        let a' := { a with
            blocks := blocks'
            next_block_id := id + 1
            stats := { a.stats with num_allocations := a.stats.num_allocations + 1 } }
        (a'.updateStats, .ok id)

/-- First loop of `Allocator::coalesce`: absorb the following chain nodes
while they are free. -/
def mergeForward : MemoryBlock → List MemoryBlock → MemoryBlock × List MemoryBlock
  | b, [] => (b, [])
  | b, n :: rest =>
      if n.is_free = true then mergeForward { b with size := b.size + n.size } rest
      else (b, n :: rest)

/-- Second loop of `Allocator::coalesce`: absorb the block into its
predecessors while they are free (the predecessor keeps its address and
grows). The first argument is the reversed prefix of the chain. -/
def mergeBackward : List MemoryBlock → MemoryBlock → List MemoryBlock × MemoryBlock
  | [], b => ([], b)
  | p :: rest, b =>
      if p.is_free = true then mergeBackward rest { p with size := p.size + b.size }
      else (p :: rest, b)

/-- The body of `Allocator::coalesce` applied to the node at index `i` of the chain
(the source's guard `!block->is_free` included). -/
def coalesceAt (blocks : List MemoryBlock) (i : Nat) : List MemoryBlock :=
  let b := blocks.getD i default
  if b.is_free = true then
    let fw := mergeForward b (blocks.drop (i + 1))
    let bw := mergeBackward (blocks.take i).reverse fw.1
    bw.1.reverse ++ bw.2 :: fw.2
  else blocks

/-- Search loop of `Allocator::free`: first chain node with
`block_id == id && !is_free`. -/
def findUsedGo (id : Int) : List MemoryBlock → Nat → Option Nat
  | [], _ => none
  | b :: rest, i =>
      if b.block_id = id ∧ b.is_free = false then some i
      else findUsedGo id rest (i + 1)

/-- The search of `Allocator::free`, as a chain index. -/
def findUsedIdx (blocks : List MemoryBlock) (id : Int) : Option Nat :=
  findUsedGo id blocks 0

/-- The body of `Allocator::free`: mark the found block free, bump
`num_deallocations`, coalesce around it, recompute stats. -/
def Allocator.free (a : Allocator) (id : Int) : Allocator × Bool :=
  if a.blocks = [] then (a, false)
  else
    match findUsedIdx a.blocks id with
    | none => (a, false)
    | some i =>
        let b := a.blocks.getD i default
        let blocks' := a.blocks.set i { b with is_free := true, block_id := -1 }
        let a' := { a with
            blocks := coalesceAt blocks' i
            stats := { a.stats with
              num_deallocations := a.stats.num_deallocations + 1 } }
        (a'.updateStats, true)

/-! ## Allocator: reachable states -/

/-- One command of the external interpreter that mutates the allocator. -/
inductive AllocOp
  | initMem (size : Nat)
  | alloc (size : Nat)
  | release (id : Int)
  | setStrat (s : AllocationStrategy)

/-- Apply one command. -/
def Allocator.step (a : Allocator) : AllocOp → Allocator
  | .initMem s => (a.initMemory s).1
  | .alloc s => (a.allocate s).1
  | .release id => (a.free id).1
  | .setStrat s => a.setStrategy s

/-- The allocator state after a command sequence, from the constructor. -/
def Allocator.run (ops : List AllocOp) : Allocator :=
  ops.foldl Allocator.step Allocator.initState

/-! ## Cache: data model (`cache.h`) -/

/-- The `enum class ReplacementPolicy` from `cache.h`. -/
inductive ReplacementPolicy
  | FIFO
  | LRU
deriving DecidableEq, Repr

/-- The `struct CacheLine` from `cache.h`; its default constructor is
`valid=false, dirty=false, tag=0, last_access=0`. -/
structure CacheLine where
  valid : Bool
  dirty : Bool
  tag : Nat
  last_access : Nat
deriving DecidableEq, Repr

instance : Inhabited CacheLine := ⟨⟨false, false, 0, 0⟩⟩

/-- The `struct CacheStats` from `cache.h`; default constructor all zero. -/
structure CacheStats where
  hits : Nat
  misses : Nat
  accesses : Nat
  write_backs : Nat
  total_access_time : Nat
deriving DecidableEq, Repr

/-- The `CacheStats()` default constructor. -/
def CacheStats.init : CacheStats := ⟨0, 0, 0, 0, 0⟩

/-- The state of `class CacheLevel`: geometry, sets, FIFO queues, policy,
stats, the monotonic access counter and the per-level latency. -/
structure CacheLevel where
  name : String
  size : Nat
  block_size : Nat
  associativity : Nat
  num_sets : Nat
  num_lines : Nat
  sets : List (List CacheLine)
  fifo_queues : List (List Nat)
  policy : ReplacementPolicy
  stats : CacheStats
  access_counter : Nat
  access_latency : Nat
deriving DecidableEq, Repr

/-! ## Cache: operations (`cache.cpp`) -/

/-- The `CacheLevel` constructor: `num_lines = size / block_size`,
`num_sets = num_lines / associativity` (integer division, silently
truncating), every line default-initialized, empty FIFO queues. -/
def CacheLevel.make (levelName : String) (cacheSize blockSize assoc : Nat)
    (pol : ReplacementPolicy) (latency : Nat) : CacheLevel :=
  let num_lines := cacheSize / blockSize
  let num_sets := num_lines / assoc
  { name := levelName
    size := cacheSize
    block_size := blockSize
    associativity := assoc
    num_sets := num_sets
    num_lines := num_lines
    sets := List.replicate num_sets (List.replicate assoc default)
    fifo_queues := List.replicate num_sets []
    policy := pol
    stats := CacheStats.init
    access_counter := 0
    access_latency := latency }

/-- Fuel-driven floor-log2 recursion (`⌊log2 n⌋` once the fuel is at
least `n`): structural recursion so that concrete values reduce. -/
def floorLog2Fuel : Nat → Nat → Nat
  | 0, _ => 0
  | fuel + 1, n => if 2 ≤ n then floorLog2Fuel fuel (n / 2) + 1 else 0

/-- The `(size_t)std::log2(n)` of the source: the floor of the base-2
logarithm (`0` for `n ≤ 1`). -/
def floorLog2 (n : Nat) : Nat := floorLog2Fuel n n

/-- The body of `CacheLevel::getSetIndex`: drop the block-offset bits
(`(size_t)std::log2(block_size)` of them), then mod by `num_sets`. -/
def CacheLevel.getSetIndex (c : CacheLevel) (address : Nat) : Nat :=
  (address >>> floorLog2 c.block_size) % c.num_sets

/-- The body of `CacheLevel::getTag`: drop block-offset and set bits. -/
def CacheLevel.getTag (c : CacheLevel) (address : Nat) : Nat :=
  address >>> (floorLog2 c.block_size + floorLog2 c.num_sets)

/-- Hit-scan loop of `CacheLevel::access`: index of the first line in the
set with `valid && tag == tag`. -/
def findHitIdx (tag : Nat) : List CacheLine → Nat → Option Nat
  | [], _ => none
  | l :: rest, i =>
      if l.valid = true ∧ l.tag = tag then some i
      else findHitIdx tag rest (i + 1)

/-- Invalid-line scan of `CacheLevel::findVictim`: index of the first
line with `!valid`. -/
def findInvalidIdx : List CacheLine → Nat → Option Nat
  | [], _ => none
  | l :: rest, i =>
      if l.valid = false then some i else findInvalidIdx rest (i + 1)

/-- LRU scan of `CacheLevel::findVictim`: starting from `victim = 0`,
`min = set[0].last_access`, replace on a strictly smaller `last_access`
(ties keep the earlier index). -/
def lruVictimGo : Nat → Nat → Nat → List CacheLine → Nat
  | victim, _, _, [] => victim
  | victim, mn, i, l :: rest =>
      if l.last_access < mn then lruVictimGo i l.last_access (i + 1) rest
      else lruVictimGo victim mn (i + 1) rest

/-- The LRU branch of `CacheLevel::findVictim` on a whole set. -/
def lruVictim : List CacheLine → Nat
  | [] => 0
  | l :: rest => lruVictimGo 0 l.last_access 1 rest

/-- The body of `CacheLevel::findVictim`: first invalid line, else FIFO queue front
(popped) or the LRU scan. Returns the victim index and the updated FIFO
queue of the set. -/
def findVictim (set : List CacheLine) (queue : List Nat)
    (policy : ReplacementPolicy) : Nat × List Nat :=
  match findInvalidIdx set 0 with
  | some i => (i, queue)
  | none =>
      match policy with
      | .FIFO => (queue.headD 0, queue.tail)
      | .LRU => (lruVictim set, queue)

/-- The body of `CacheLevel::access`: bookkeeping, hit scan, and on a miss the
victim selection, dirty write-back accounting, line install and FIFO
push. Returns the new level state and the hit flag. -/
def CacheLevel.access (c : CacheLevel) (address : Nat) (isWrite : Bool) :
    CacheLevel × Bool :=
  let stats1 := { c.stats with
      accesses := c.stats.accesses + 1
      total_access_time := c.stats.total_access_time + c.access_latency }
  let counter := c.access_counter + 1
  let si := c.getSetIndex address
  let tag := c.getTag address
  let set := c.sets.getD si []
  match findHitIdx tag set 0 with
  | some i =>
      let line := set.getD i default
      let line' := { line with
          last_access := counter
          dirty := line.dirty || isWrite }
      ({ c with
          stats := { stats1 with hits := stats1.hits + 1 }
          access_counter := counter
          sets := c.sets.set si (set.set i line') },
       true)
  | none =>
      let stats2 := { stats1 with misses := stats1.misses + 1 }
      let vq := findVictim set (c.fifo_queues.getD si []) c.policy
      let victim := vq.1
      let vline := set.getD victim default
      let stats3 :=
        if vline.valid = true ∧ vline.dirty = true then
          { stats2 with write_backs := stats2.write_backs + 1 }
        else stats2
      let newLine : CacheLine := ⟨true, isWrite, tag, counter⟩
      let queue' := if c.policy = .FIFO then vq.2 ++ [victim] else vq.2
      ({ c with
          stats := stats3
          access_counter := counter
          sets := c.sets.set si (set.set victim newLine)
          fifo_queues := c.fifo_queues.set si queue' },
       false)

/-- The body of `CacheLevel::resetStats`. -/
def CacheLevel.resetStats (c : CacheLevel) : CacheLevel :=
  { c with stats := CacheStats.init }

/-- The state of `class CacheSimulator`. -/
structure CacheSimulator where
  levels : List CacheLevel
  initialized : Bool
  total_access_time : Nat
  memory_latency : Nat
deriving DecidableEq, Repr

/-- The `CacheSimulator()` constructor: no levels, `memory_latency = 100`. -/
def CacheSimulator.initState : CacheSimulator := ⟨[], false, 0, 100⟩

/-- The body of `CacheSimulator::addLevel`: unconditionally append a freshly
constructed level and mark the simulator initialized. -/
def CacheSimulator.addLevel (cs : CacheSimulator) (name : String)
    (size blockSize associativity : Nat) (policy : ReplacementPolicy)
    (latency : Nat) : CacheSimulator :=
  { cs with
      levels := cs.levels ++ [CacheLevel.make name size blockSize associativity policy latency]
      initialized := true }

/-- Probe loop of `CacheSimulator::access`: accumulate each probed
level's latency, stop at the first hit, charge `memory_latency` after a
full miss. Returns the updated levels, the total cost of this access and
whether some level hit. -/
def hierProbe (memLat : Nat) (address : Nat) (isWrite : Bool) :
    List CacheLevel → Nat → List CacheLevel × Nat × Bool
  | [], acc => ([], acc + memLat, false)
  | lv :: rest, acc =>
      let r := lv.access address isWrite
      let acc' := acc + lv.access_latency
      if r.2 then (r.1 :: rest, acc', true)
      else
        let rec' := hierProbe memLat address isWrite rest acc'
        (r.1 :: rec'.1, rec'.2)

/-- The body of `CacheSimulator::access`: run the probe and add this access's cost to
the cumulative `total_access_time`. -/
def CacheSimulator.access (cs : CacheSimulator) (address : Nat) (isWrite : Bool) :
    CacheSimulator :=
  let r := hierProbe cs.memory_latency address isWrite cs.levels 0
  { cs with
      levels := r.1
      total_access_time := cs.total_access_time + r.2.1 }

/-! ## Spec-side cost of one hierarchy access

The specification describes the cost of a single access as the sum of the
latencies of the probed levels up to and including the first level that
hits, plus `memory_latency` when every level misses.  (Whether level `i`
hits is decided by that level's own `access` on its pre-access state:
levels are probed in order and earlier probes do not touch later levels.) -/

/-- The specification's cost formula for one access against the given
(pre-access) levels. -/
def specAccessCost (memLat : Nat) (address : Nat) (isWrite : Bool) :
    List CacheLevel → Nat
  | [] => memLat
  | lv :: rest =>
      lv.access_latency +
        (if (lv.access address isWrite).2 = true then 0
         else specAccessCost memLat address isWrite rest)

/-! ## Proof-layer definitions (selection mirrors, invariant relations, views) -/

/-- Value-level mirror of the first-fit scan: the first free size that
fits. -/
def firstSize (size : Nat) : List Nat → Option Nat
  | [] => none
  | s :: rest => if size ≤ s then some s else firstSize size rest

/-- Value-level mirror of `chooseSmaller`. -/
def sizeSmaller (sz : Nat) : Option Nat → Option Nat
  | none => some sz
  | some bs => if sz < bs then some sz else some bs

/-- Value-level mirror of `chooseLarger`. -/
def sizeLarger (sz : Nat) : Option Nat → Option Nat
  | none => some sz
  | some bs => if bs < sz then some sz else some bs

/-- Value-level mirror of the best-fit accumulator over the free sizes. -/
def bestSizeFold (size : Nat) : List Nat → Option Nat → Option Nat
  | [], acc => acc
  | s :: rest, acc =>
      if size ≤ s then bestSizeFold size rest (sizeSmaller s acc)
      else bestSizeFold size rest acc

/-- Value-level mirror of the worst-fit accumulator over the free sizes. -/
def worstSizeFold (size : Nat) : List Nat → Option Nat → Option Nat
  | [], acc => acc
  | s :: rest, acc =>
      if size ≤ s then worstSizeFold size rest (sizeLarger s acc)
      else worstSizeFold size rest acc

/-- A selected index is in range, free and large enough. -/
def selOK (blocks : List MemoryBlock) (size i : Nat) : Prop :=
  i < blocks.length ∧ (blocks.getD i default).is_free = true ∧
    size ≤ (blocks.getD i default).size

/-- A best/worst-fit accumulator entry is a consistent in-range, free,
fitting (index, size) pair. -/
def accOK (blocks : List MemoryBlock) (size : Nat) (p : Nat × Nat) : Prop :=
  p.1 < blocks.length ∧ (blocks.getD p.1 default).is_free = true ∧
    size ≤ p.2 ∧ (blocks.getD p.1 default).size = p.2

/-- Sum of the sizes of all chain nodes. -/
def sumSizes (blocks : List MemoryBlock) : Nat :=
  (blocks.map MemoryBlock.size).sum

/-- The coalescing invariant's edge relation: two adjacent chain nodes
are never both free. -/
def NotBothFree (x y : MemoryBlock) : Prop :=
  x.is_free = false ∨ y.is_free = false

/-- The victim index `CacheLevel::access` would use for this address (the
result of `findVictim` on the target set). -/
def victimIdxOf (c : CacheLevel) (address : Nat) : Nat :=
  (findVictim (c.sets.getD (c.getSetIndex address) [])
    (c.fifo_queues.getD (c.getSetIndex address) []) c.policy).1

/-- The victim line `CacheLevel::access` would evict for this address. -/
def victimLineOf (c : CacheLevel) (address : Nat) : CacheLine :=
  (c.sets.getD (c.getSetIndex address) []).getD (victimIdxOf c address) default

/-- The action of `CacheLevel::access` on the one set it touches: hit
scan, then victim selection, install and queue update. `counter` is the
already-incremented access counter. -/
def setAccess (pol : ReplacementPolicy) (tag counter : Nat) (isWrite : Bool)
    (set : List CacheLine) (queue : List Nat) :
    List CacheLine × List Nat × Bool :=
  match findHitIdx tag set 0 with
  | some i =>
      let line := set.getD i default
      (set.set i { line with last_access := counter, dirty := line.dirty || isWrite },
       queue, true)
  | none =>
      let vq := findVictim set queue pol
      (set.set vq.1 (⟨true, isWrite, tag, counter⟩ : CacheLine),
       (if pol = .FIFO then vq.2 ++ [vq.1] else vq.2), false)

/-- The tags of the valid lines of set `si`, in line order. -/
def residentTags (c : CacheLevel) (si : Nat) : List Nat :=
  ((c.sets.getD si []).filter fun l => l.valid).map CacheLine.tag

/-- Abstract view of one cache level: geometry, policy, counter, and the
contents of the single set `s` under scrutiny. -/
structure LevelView (c : CacheLevel) (bs0 ns0 : Nat) (pol : ReplacementPolicy)
    (s : Nat) (v : List CacheLine × List Nat × Nat) : Prop where
  bsEq : c.block_size = bs0
  nsEq : c.num_sets = ns0
  polEq : c.policy = pol
  cntEq : c.access_counter = v.2.2
  setsLt : s < c.sets.length
  queuesLt : s < c.fifo_queues.length
  setEq : c.sets.getD s [] = v.1
  queueEq : c.fifo_queues.getD s [] = v.2.1

/-! ## General list helpers -/

theorem getD_set_self {α : Type _} (l : List α) (i : Nat) (x d : α)
    (h : i < l.length) : (l.set i x).getD i d = x := by
  simp [List.getD, List.getElem?_set_self', List.getElem?_eq_getElem h]

theorem getD_replicate {α : Type _} {n i : Nat} (h : i < n) (a d : α) :
    (List.replicate n a).getD i d = a := by
  simp [List.getD, List.getElem?_replicate, h]

theorem eq_take_getD_drop {α : Type _} (l : List α) (i : Nat) (d : α)
    (h : i < l.length) : l = l.take i ++ l.getD i d :: l.drop (i + 1) := by
  conv_lhs => rw [← List.take_append_drop i l]
  rw [List.drop_eq_getElem_cons h, List.getD_eq_getElem l d h]

theorem take_set {α : Type _} (l : List α) (i : Nat) (x : α) :
    (l.set i x).take i = l.take i := by
  rw [List.set_take]
  exact List.set_eq_of_length_le (by simp [List.length_take])

theorem drop_succ_set {α : Type _} (l : List α) (i : Nat) (x : α) :
    (l.set i x).drop (i + 1) = l.drop (i + 1) := by
  rw [List.drop_set, if_pos (by omega)]

theorem getD_drop {α : Type _} (l : List α) (n j : Nat) (d : α) :
    (l.drop n).getD j d = l.getD (n + j) d := by
  induction l generalizing n with
  | nil => simp
  | cons a t ih =>
    cases n with
    | zero => simp
    | succ m =>
      simp [List.drop_succ_cons, Nat.succ_add, ih m]

/-- Induction principle for reachable allocator states. -/
theorem run_induct (P : Allocator → Prop) (h0 : P Allocator.initState)
    (hstep : ∀ a op, P a → P (a.step op)) :
    ∀ ops : List AllocOp, P (Allocator.run ops) := by
  have key : ∀ (ops : List AllocOp) (a : Allocator), P a → P (ops.foldl Allocator.step a) := by
    intro ops
    induction ops with
    | nil => intro a ha; exact ha
    | cons op rest ih =>
      intro a ha
      exact ih _ (hstep a op ha)
  intro ops
  exact key ops _ h0

/-! ## Claim C10 -/

/-- C10: `initMemory(0)` succeeds: it returns `true`, marks the allocator
initialized, and creates a single free block of size `0` spanning `[0,0)`;
every subsequent `allocate` on this state fails with `OutOfMemory`
(`InvalidSize` for a zero request). -/
theorem initMemory_zero_succeeds (a : Allocator) :
    (a.initMemory 0).2 = true ∧
    (a.initMemory 0).1.isInitialized = true ∧
    (a.initMemory 0).1.blocks = [⟨0, 0, true, -1⟩] ∧
    ∀ size : Nat, ((a.initMemory 0).1.allocate size).2 =
      (if size = 0 then AllocResult.invalidSize else AllocResult.outOfMemory) := by
  refine ⟨rfl, rfl, rfl, fun size => ?_⟩
  by_cases h0 : size = 0
  · subst h0; rfl
  · have h1 : ¬ (size ≤ 0) := by omega
    cases hstrat : a.strategy <;>
      simp [Allocator.allocate, Allocator.initMemory, findFreeBlockIdx, hstrat,
        firstFitIdx, firstFitGo, bestFitIdx, bestFitGo, worstFitIdx, worstFitGo, h0, h1]

/-! ## Claim C4 -/

/-- C4 (counterexample to the claim / evaluation of the actual code):
`CacheSimulator::addLevel` never fails — it unconditionally appends a
level for every geometry — and the `CacheLevel` constructor silently
truncates a non-dividing geometry: for `size = 100`, `block_size = 64`,
`associativity = 1` (which does not divide evenly, `100 % 64 ≠ 0`) it
quietly builds a level with `num_sets = 1`. No `InvalidConfig` failure
exists anywhere in the core. -/
theorem addLevel_silently_truncates :
    (∀ (cs : CacheSimulator) (name : String) (size blockSize assoc : Nat)
        (pol : ReplacementPolicy) (lat : Nat),
        (cs.addLevel name size blockSize assoc pol lat).levels.length
          = cs.levels.length + 1) ∧
    (CacheLevel.make "L1" 100 64 1 ReplacementPolicy.LRU 1).num_sets = 1 ∧
    100 % 64 ≠ 0 := by
  refine ⟨fun cs name size blockSize assoc pol lat => ?_, rfl, by decide⟩
  simp [CacheSimulator.addLevel]

/-- Witness: adding the non-dividing level to a fresh simulator
succeeds. -/
theorem addLevel_silently_truncates_witness :
    (CacheSimulator.initState.addLevel "L1" 100 64 1
        ReplacementPolicy.LRU 1).levels.length
      = CacheSimulator.initState.levels.length + 1 :=
  addLevel_silently_truncates.1 CacheSimulator.initState "L1" 100 64 1
    ReplacementPolicy.LRU 1

/-! ## Claim C3 -/

/-- The probe loop accumulates exactly the specification's cost. -/
theorem hierProbe_cost (memLat address : Nat) (isWrite : Bool) :
    ∀ (levels : List CacheLevel) (acc : Nat),
      (hierProbe memLat address isWrite levels acc).2.1
        = acc + specAccessCost memLat address isWrite levels := by
  intro levels
  induction levels with
  | nil => intro acc; simp [hierProbe, specAccessCost]
  | cons lv rest ih =>
    intro acc
    simp only [hierProbe, specAccessCost]
    by_cases h : (lv.access address isWrite).2 = true
    · simp [h]
    · simp only [h, Bool.false_eq_true, if_false]
      have hb : (lv.access address isWrite).2 = false := by
        cases hx : (lv.access address isWrite).2
        · rfl
        · exact absurd hx h
      simp [hb, ih, Nat.add_assoc]

/-- C3: every hierarchy access adds to the cumulative `total_access_time`
the sum of the latencies of all probed levels up to and including the
first hitting level, plus `memory_latency` when every level misses; in
particular with L1 latency 1, L2 latency 10 and memory latency 100, an
address missing in both levels costs 111 cycles and an address hitting in
L2 costs 11 cycles. -/
theorem hierarchy_access_cost :
    (∀ (cs : CacheSimulator) (address : Nat) (isWrite : Bool),
        (cs.access address isWrite).total_access_time
          = cs.total_access_time
            + specAccessCost cs.memory_latency address isWrite cs.levels) ∧
    (let h0 := (CacheSimulator.initState.addLevel "L1" 16 16 1
          ReplacementPolicy.LRU 1).addLevel "L2" 64 16 4 ReplacementPolicy.LRU 10
     let h1 := h0.access 0 false
     let h2 := h1.access 16 false
     h1.total_access_time = h0.total_access_time + 111 ∧
     (h2.access 0 false).total_access_time = h2.total_access_time + 11) := by
  constructor
  · intro cs address isWrite
    simp [CacheSimulator.access, hierProbe_cost]
  · constructor
    · decide
    · decide

/-! ## Claim C9 -/

/-- C9: for every reachable allocator state the stored
`external_fragmentation` equals the formula
`(1 - largest_free/total_free) * 100` guarded by more than one free block
and positive total free space (that is exactly `fragOf`), and the formula
yields `60` whenever the free blocks have sizes `{200,150,150}`. -/
theorem external_fragmentation_formula :
    (∀ ops : List AllocOp,
        (Allocator.run ops).stats.external_fragmentation
          = fragOf (Allocator.run ops).blocks) ∧
    (∀ blocks : List MemoryBlock, freeSizes blocks = [200, 150, 150] →
        fragOf blocks = 60) := by
  constructor
  · refine run_induct (fun a => a.stats.external_fragmentation = fragOf a.blocks) ?_ ?_
    · simp [Allocator.initState, AllocationStats.init, fragOf, freeSizes]
    · intro a op hP
      cases op with
      | initMem s =>
        simp [Allocator.step, Allocator.initMemory, AllocationStats.init,
          fragOf, freeSizes]
      | alloc s =>
        simp only [Allocator.step, Allocator.allocate]
        by_cases hb : a.blocks = []
        · simp [hb, hP]
        · simp only [hb, if_false, if_neg hb]
          by_cases hs : s = 0
          · simp [hs, hP]
          · simp only [hs, if_false, if_neg hs]
            cases hfind : findFreeBlockIdx a.blocks a.strategy s with
            | none => simpa using hP
            | some i => simp [Allocator.updateStats]
      | release id =>
        simp only [Allocator.step, Allocator.free]
        by_cases hb : a.blocks = []
        · simp [hb, hP]
        · simp only [hb, if_false, if_neg hb]
          cases hfind : findUsedIdx a.blocks id with
          | none => simpa using hP
          | some i => simp [Allocator.updateStats]
      | setStrat s =>
        simpa [Allocator.step, Allocator.setStrategy] using hP
  · intro blocks h
    rw [fragOf, largestFree, h]
    norm_num

/-- Witness for the fragmentation formula: a chain whose free blocks have
sizes `200, 150, 150` (with used blocks interleaved) yields exactly `60`. -/
theorem external_fragmentation_formula_witness :
    freeSizes [⟨0, 200, true, -1⟩, ⟨200, 10, false, 1⟩, ⟨210, 150, true, -1⟩,
        ⟨360, 10, false, 2⟩, ⟨370, 150, true, -1⟩] = [200, 150, 150] ∧
    fragOf [⟨0, 200, true, -1⟩, ⟨200, 10, false, 1⟩, ⟨210, 150, true, -1⟩,
        ⟨360, 10, false, 2⟩, ⟨370, 150, true, -1⟩] = 60 :=
  ⟨rfl, external_fragmentation_formula.2 _ rfl⟩

/-! ## Claims about placement-strategy selection (C2) -/


theorem drop_succ_of_drop_cons {α : Type _} {blocks : List α} {b : α}
    {rest : List α} {start : Nat} (h : blocks.drop start = b :: rest) :
    blocks.drop (start + 1) = rest := by
  have h1 : (blocks.drop start).drop 1 = rest := by rw [h]; simp
  rw [List.drop_drop] at h1
  exact h1

theorem getD_of_drop_cons {α : Type _} [Inhabited α] {blocks : List α} {b : α}
    {rest : List α} {start : Nat} (h : blocks.drop start = b :: rest) :
    blocks.getD start default = b := by
  have h1 := getD_drop blocks start 0 (default : α)
  rw [h] at h1
  simpa using h1.symm

theorem lt_length_of_drop_cons {α : Type _} {blocks : List α} {b : α}
    {rest : List α} {start : Nat} (h : blocks.drop start = b :: rest) :
    start < blocks.length := by
  by_contra hc
  rw [List.drop_eq_nil_of_le (by omega)] at h
  exact List.noConfusion h

/-- The first-fit scan selects the first free size that fits. -/
theorem firstFitGo_size (size : Nat) (blocks : List MemoryBlock) :
    ∀ (l : List MemoryBlock) (start : Nat), blocks.drop start = l →
      (firstFitGo size l start).map (fun i => (blocks.getD i default).size)
        = firstSize size (freeSizes l) := by
  intro l
  induction l with
  | nil => intro start _; simp [firstFitGo, freeSizes, firstSize]
  | cons b rest ih =>
    intro start hdrop
    have hb := getD_of_drop_cons hdrop
    have hrest := drop_succ_of_drop_cons hdrop
    by_cases hf : b.is_free = true
    · have hfree : freeSizes (b :: rest) = b.size :: freeSizes rest := by
        simp [freeSizes, List.filter_cons, hf]
      by_cases hsz : size ≤ b.size
      · rw [firstFitGo, if_pos ⟨hf, hsz⟩, hfree, firstSize, if_pos hsz,
          Option.map_some', hb]
      · rw [firstFitGo, if_neg (fun hc => hsz hc.2), hfree, firstSize, if_neg hsz]
        exact ih (start + 1) hrest
    · have hfree : freeSizes (b :: rest) = freeSizes rest := by
        simp [freeSizes, List.filter_cons, hf]
      rw [firstFitGo, if_neg (fun hc => hf hc.1), hfree]
      exact ih (start + 1) hrest

/-- The first-fit scan only returns in-range, free, fitting indices. -/
theorem firstFitGo_selOK (size : Nat) (blocks : List MemoryBlock) :
    ∀ (l : List MemoryBlock) (start : Nat), blocks.drop start = l →
      ∀ i, firstFitGo size l start = some i → selOK blocks size i := by
  intro l
  induction l with
  | nil => intro start _ i h; simp [firstFitGo] at h
  | cons b rest ih =>
    intro start hdrop i h
    have hb := getD_of_drop_cons hdrop
    have hrest := drop_succ_of_drop_cons hdrop
    by_cases hc : b.is_free = true ∧ size ≤ b.size
    · rw [firstFitGo, if_pos hc] at h
      cases h
      exact ⟨lt_length_of_drop_cons hdrop, by rw [hb]; exact hc.1, by rw [hb]; exact hc.2⟩
    · rw [firstFitGo, if_neg hc] at h
      exact ih (start + 1) hrest i h

/-- Building a consistent accumulator entry from a chain node. -/
theorem accOK_mk {blocks : List MemoryBlock} {size start : Nat}
    {b : MemoryBlock} (hb : blocks.getD start default = b)
    (hlen : start < blocks.length) (hf : b.is_free = true)
    (hsz : size ≤ b.size) : accOK blocks size (start, b.size) := by
  have h2 : (blocks.getD start default).is_free = true := by rw [hb]; exact hf
  have h4 : (blocks.getD start default).size = b.size := by rw [hb]
  exact ⟨hlen, h2, hsz, h4⟩

/-- The update `chooseSmaller` preserves accumulator consistency. -/
theorem chooseSmaller_accOK {blocks : List MemoryBlock} {size : Nat}
    {i sz : Nat} {acc : Option (Nat × Nat)}
    (hcand : accOK blocks size (i, sz))
    (hacc : ∀ p, acc = some p → accOK blocks size p) :
    ∀ q, chooseSmaller i sz acc = some q → accOK blocks size q := by
  intro q hq
  cases acc with
  | none => rw [chooseSmaller] at hq; cases hq; exact hcand
  | some p =>
    rw [chooseSmaller] at hq
    by_cases hlt : sz < p.2
    · rw [if_pos hlt] at hq; cases hq; exact hcand
    · rw [if_neg hlt] at hq; cases hq; exact hacc _ rfl

/-- The update `chooseLarger` preserves accumulator consistency. -/
theorem chooseLarger_accOK {blocks : List MemoryBlock} {size : Nat}
    {i sz : Nat} {acc : Option (Nat × Nat)}
    (hcand : accOK blocks size (i, sz))
    (hacc : ∀ p, acc = some p → accOK blocks size p) :
    ∀ q, chooseLarger i sz acc = some q → accOK blocks size q := by
  intro q hq
  cases acc with
  | none => rw [chooseLarger] at hq; cases hq; exact hcand
  | some p =>
    rw [chooseLarger] at hq
    by_cases hlt : p.2 < sz
    · rw [if_pos hlt] at hq; cases hq; exact hcand
    · rw [if_neg hlt] at hq; cases hq; exact hacc _ rfl

/-- The best-fit accumulator only holds consistent entries. -/
theorem bestFitGo_accOK (size : Nat) (blocks : List MemoryBlock) :
    ∀ (l : List MemoryBlock) (start : Nat) (acc : Option (Nat × Nat)),
      blocks.drop start = l → (∀ p, acc = some p → accOK blocks size p) →
      ∀ q, bestFitGo size l start acc = some q → accOK blocks size q := by
  intro l
  induction l with
  | nil => intro start acc _ hacc q h; exact hacc q h
  | cons b rest ih =>
    intro start acc hdrop hacc q h
    have hb := getD_of_drop_cons hdrop
    have hrest := drop_succ_of_drop_cons hdrop
    by_cases hc : b.is_free = true ∧ size ≤ b.size
    · rw [bestFitGo, if_pos hc] at h
      refine ih (start + 1) _ hrest ?_ q h
      exact chooseSmaller_accOK
        (accOK_mk hb (lt_length_of_drop_cons hdrop) hc.1 hc.2) hacc
    · rw [bestFitGo, if_neg hc] at h
      exact ih (start + 1) _ hrest hacc q h

/-- The worst-fit accumulator only holds consistent entries. -/
theorem worstFitGo_accOK (size : Nat) (blocks : List MemoryBlock) :
    ∀ (l : List MemoryBlock) (start : Nat) (acc : Option (Nat × Nat)),
      blocks.drop start = l → (∀ p, acc = some p → accOK blocks size p) →
      ∀ q, worstFitGo size l start acc = some q → accOK blocks size q := by
  intro l
  induction l with
  | nil => intro start acc _ hacc q h; exact hacc q h
  | cons b rest ih =>
    intro start acc hdrop hacc q h
    have hb := getD_of_drop_cons hdrop
    have hrest := drop_succ_of_drop_cons hdrop
    by_cases hc : b.is_free = true ∧ size ≤ b.size
    · rw [worstFitGo, if_pos hc] at h
      refine ih (start + 1) _ hrest ?_ q h
      exact chooseLarger_accOK
        (accOK_mk hb (lt_length_of_drop_cons hdrop) hc.1 hc.2) hacc
    · rw [worstFitGo, if_neg hc] at h
      exact ih (start + 1) _ hrest hacc q h

/-- Updates `chooseSmaller` and `sizeSmaller` correspond under `Prod.snd`. -/
theorem chooseSmaller_snd (i sz : Nat) (acc : Option (Nat × Nat)) :
    (chooseSmaller i sz acc).map Prod.snd = sizeSmaller sz (acc.map Prod.snd) := by
  cases acc with
  | none => rfl
  | some p =>
    by_cases hlt : sz < p.2 <;> simp [chooseSmaller, sizeSmaller, hlt]

/-- Updates `chooseLarger` and `sizeLarger` correspond under `Prod.snd`. -/
theorem chooseLarger_snd (i sz : Nat) (acc : Option (Nat × Nat)) :
    (chooseLarger i sz acc).map Prod.snd = sizeLarger sz (acc.map Prod.snd) := by
  cases acc with
  | none => rfl
  | some p =>
    by_cases hlt : p.2 < sz <;> simp [chooseLarger, sizeLarger, hlt]

/-- The best-fit scan's chosen size is determined by the free sizes. -/
theorem bestFitGo_size (size : Nat) :
    ∀ (l : List MemoryBlock) (start : Nat) (acc : Option (Nat × Nat)),
      (bestFitGo size l start acc).map Prod.snd
        = bestSizeFold size (freeSizes l) (acc.map Prod.snd) := by
  intro l
  induction l with
  | nil => intro start acc; simp [bestFitGo, freeSizes, bestSizeFold]
  | cons b rest ih =>
    intro start acc
    by_cases hf : b.is_free = true
    · have hfree : freeSizes (b :: rest) = b.size :: freeSizes rest := by
        simp [freeSizes, List.filter_cons, hf]
      by_cases hsz : size ≤ b.size
      · rw [bestFitGo, if_pos ⟨hf, hsz⟩, hfree, bestSizeFold, if_pos hsz,
          ih (start + 1), chooseSmaller_snd]
      · rw [bestFitGo, if_neg (fun hc => hsz hc.2), hfree, bestSizeFold,
          if_neg hsz]
        exact ih (start + 1) acc
    · have hfree : freeSizes (b :: rest) = freeSizes rest := by
        simp [freeSizes, List.filter_cons, hf]
      rw [bestFitGo, if_neg (fun hc => hf hc.1), hfree]
      exact ih (start + 1) acc

/-- The worst-fit scan's chosen size is determined by the free sizes. -/
theorem worstFitGo_size (size : Nat) :
    ∀ (l : List MemoryBlock) (start : Nat) (acc : Option (Nat × Nat)),
      (worstFitGo size l start acc).map Prod.snd
        = worstSizeFold size (freeSizes l) (acc.map Prod.snd) := by
  intro l
  induction l with
  | nil => intro start acc; simp [worstFitGo, freeSizes, worstSizeFold]
  | cons b rest ih =>
    intro start acc
    by_cases hf : b.is_free = true
    · have hfree : freeSizes (b :: rest) = b.size :: freeSizes rest := by
        simp [freeSizes, List.filter_cons, hf]
      by_cases hsz : size ≤ b.size
      · rw [worstFitGo, if_pos ⟨hf, hsz⟩, hfree, worstSizeFold, if_pos hsz,
          ih (start + 1), chooseLarger_snd]
      · rw [worstFitGo, if_neg (fun hc => hsz hc.2), hfree, worstSizeFold,
          if_neg hsz]
        exact ih (start + 1) acc
    · have hfree : freeSizes (b :: rest) = freeSizes rest := by
        simp [freeSizes, List.filter_cons, hf]
      rw [worstFitGo, if_neg (fun hc => hf hc.1), hfree]
      exact ih (start + 1) acc

/-- Any strategy's selection is in range, free and fitting. -/
theorem findFreeBlockIdx_selOK {blocks : List MemoryBlock}
    {strat : AllocationStrategy} {size i : Nat}
    (h : findFreeBlockIdx blocks strat size = some i) : selOK blocks size i := by
  cases strat with
  | FIRST_FIT =>
    exact firstFitGo_selOK size blocks blocks 0 (by simp) i h
  | BEST_FIT =>
    rw [findFreeBlockIdx, bestFitIdx] at h
    cases hgo : bestFitGo size blocks 0 none with
    | none => rw [hgo] at h; simp at h
    | some p =>
      rw [hgo] at h
      simp only [Option.map_some'] at h
      have hOK := bestFitGo_accOK size blocks blocks 0 none (by simp)
        (by intro p hp; exact absurd hp (by simp)) p hgo
      cases h
      exact ⟨hOK.1, hOK.2.1, le_trans hOK.2.2.1 (le_of_eq hOK.2.2.2.symm)⟩
  | WORST_FIT =>
    rw [findFreeBlockIdx, worstFitIdx] at h
    cases hgo : worstFitGo size blocks 0 none with
    | none => rw [hgo] at h; simp at h
    | some p =>
      rw [hgo] at h
      simp only [Option.map_some'] at h
      have hOK := worstFitGo_accOK size blocks blocks 0 none (by simp)
        (by intro p hp; exact absurd hp (by simp)) p hgo
      cases h
      exact ⟨hOK.1, hOK.2.1, le_trans hOK.2.2.1 (le_of_eq hOK.2.2.2.symm)⟩

/-! ## Claim C2 -/

/-- C2: on any chain whose free blocks have sizes `[100, 50, 200]` in
address order, a request of `40` selects the `100`-block under first-fit,
the `50`-block under best-fit and the `200`-block under worst-fit. -/
theorem strategy_selection (blocks : List MemoryBlock)
    (h : freeSizes blocks = [100, 50, 200]) :
    ((findFreeBlockIdx blocks AllocationStrategy.FIRST_FIT 40).map
        fun i => (blocks.getD i default).size) = some 100 ∧
    ((findFreeBlockIdx blocks AllocationStrategy.BEST_FIT 40).map
        fun i => (blocks.getD i default).size) = some 50 ∧
    ((findFreeBlockIdx blocks AllocationStrategy.WORST_FIT 40).map
        fun i => (blocks.getD i default).size) = some 200 := by
  refine ⟨?_, ?_, ?_⟩
  · have := firstFitGo_size 40 blocks blocks 0 (by simp)
    rw [h] at this
    simpa [findFreeBlockIdx, firstFitIdx, firstSize] using this
  · have hsz := bestFitGo_size 40 blocks 0 none
    rw [h] at hsz
    simp only [Option.map_none'] at hsz
    have hval : bestSizeFold 40 [100, 50, 200] none = some 50 := by decide
    rw [hval] at hsz
    cases hgo : bestFitGo 40 blocks 0 none with
    | none => rw [hgo] at hsz; simp at hsz
    | some p =>
      rw [hgo] at hsz
      simp only [Option.map_some', Option.some_inj] at hsz
      have hOK := bestFitGo_accOK 40 blocks blocks 0 none (by simp)
        (by intro q hq; exact absurd hq (by simp)) p hgo
      simp [findFreeBlockIdx, bestFitIdx, hgo]
      simpa [List.getD] using hOK.2.2.2.trans hsz
  · have hsz := worstFitGo_size 40 blocks 0 none
    rw [h] at hsz
    simp only [Option.map_none'] at hsz
    have hval : worstSizeFold 40 [100, 50, 200] none = some 200 := by decide
    rw [hval] at hsz
    cases hgo : worstFitGo 40 blocks 0 none with
    | none => rw [hgo] at hsz; simp at hsz
    | some p =>
      rw [hgo] at hsz
      simp only [Option.map_some', Option.some_inj] at hsz
      have hOK := worstFitGo_accOK 40 blocks blocks 0 none (by simp)
        (by intro q hq; exact absurd hq (by simp)) p hgo
      simp [findFreeBlockIdx, worstFitIdx, hgo]
      simpa [List.getD] using hOK.2.2.2.trans hsz

/-- Witness for the strategy-selection claim on a concrete five-block
chain. -/
theorem strategy_selection_witness :
    freeSizes [⟨0, 100, true, -1⟩, ⟨100, 30, false, 1⟩, ⟨130, 50, true, -1⟩,
        ⟨180, 20, false, 2⟩, ⟨200, 200, true, -1⟩] = [100, 50, 200] ∧
    ((findFreeBlockIdx [⟨0, 100, true, -1⟩, ⟨100, 30, false, 1⟩,
        ⟨130, 50, true, -1⟩, ⟨180, 20, false, 2⟩, ⟨200, 200, true, -1⟩]
        AllocationStrategy.BEST_FIT 40).map
      fun i => (([⟨0, 100, true, -1⟩, ⟨100, 30, false, 1⟩, ⟨130, 50, true, -1⟩,
        ⟨180, 20, false, 2⟩, ⟨200, 200, true, -1⟩] : List MemoryBlock).getD i
          default).size) = some 50 :=
  ⟨rfl, (strategy_selection
      [⟨0, 100, true, -1⟩, ⟨100, 30, false, 1⟩, ⟨130, 50, true, -1⟩,
       ⟨180, 20, false, 2⟩, ⟨200, 200, true, -1⟩] rfl).2.1⟩


/-! ## Claim C8 -/

/-- If no free block fits, the first-fit scan finds nothing. -/
theorem firstFitGo_none (size : Nat) :
    ∀ (l : List MemoryBlock) (start : Nat),
      (∀ b ∈ l, b.is_free = true → b.size < size) →
      firstFitGo size l start = none := by
  intro l
  induction l with
  | nil => intro start _; rfl
  | cons b rest ih =>
    intro start h
    rw [firstFitGo, if_neg (fun hc => by
      have := h b (List.mem_cons_self b rest) hc.1
      omega)]
    exact ih (start + 1) (fun x hx => h x (List.mem_cons_of_mem b hx))

/-- If no free block fits, the best-fit scan keeps its accumulator. -/
theorem bestFitGo_none (size : Nat) :
    ∀ (l : List MemoryBlock) (start : Nat),
      (∀ b ∈ l, b.is_free = true → b.size < size) →
      bestFitGo size l start none = none := by
  intro l
  induction l with
  | nil => intro start _; rfl
  | cons b rest ih =>
    intro start h
    rw [bestFitGo, if_neg (fun hc => by
      have := h b (List.mem_cons_self b rest) hc.1
      omega)]
    exact ih (start + 1) (fun x hx => h x (List.mem_cons_of_mem b hx))

/-- If no free block fits, the worst-fit scan keeps its accumulator. -/
theorem worstFitGo_none (size : Nat) :
    ∀ (l : List MemoryBlock) (start : Nat),
      (∀ b ∈ l, b.is_free = true → b.size < size) →
      worstFitGo size l start none = none := by
  intro l
  induction l with
  | nil => intro start _; rfl
  | cons b rest ih =>
    intro start h
    rw [worstFitGo, if_neg (fun hc => by
      have := h b (List.mem_cons_self b rest) hc.1
      omega)]
    exact ih (start + 1) (fun x hx => h x (List.mem_cons_of_mem b hx))

/-- If no free block fits, no strategy finds a block. -/
theorem findFreeBlockIdx_none {blocks : List MemoryBlock}
    {strat : AllocationStrategy} {size : Nat}
    (h : ∀ b ∈ blocks, b.is_free = true → b.size < size) :
    findFreeBlockIdx blocks strat size = none := by
  cases strat with
  | FIRST_FIT => exact firstFitGo_none size blocks 0 h
  | BEST_FIT =>
    rw [findFreeBlockIdx, bestFitIdx, bestFitGo_none size blocks 0 h]
    rfl
  | WORST_FIT =>
    rw [findFreeBlockIdx, worstFitIdx, worstFitGo_none size blocks 0 h]
    rfl

/-- C8: on an initialized allocator in which no free block can hold the
(nonzero) requested size, `allocate` fails with `OutOfMemory`,
increments `allocation_failures` by exactly one, and leaves the chain,
all other statistics, the strategy and the id counter unchanged. -/
theorem allocate_out_of_memory (a : Allocator) (size : Nat)
    (hinit : a.blocks ≠ []) (hpos : 0 < size)
    (hnofit : ∀ b ∈ a.blocks, b.is_free = true → b.size < size) :
    a.allocate size =
      ({ a with stats := { a.stats with
            allocation_failures := a.stats.allocation_failures + 1 } },
       AllocResult.outOfMemory) := by
  rw [Allocator.allocate, if_neg hinit, if_neg (by omega : ¬ size = 0),
    findFreeBlockIdx_none hnofit]

/-- Witness for the out-of-memory claim: one fully used block, request
larger than everything. -/
theorem allocate_out_of_memory_witness :
    ({ Allocator.initState with
        blocks := [⟨0, 10, false, 1⟩] } : Allocator).blocks ≠ [] ∧
    (0 : Nat) < 20 ∧
    (∀ b ∈ ({ Allocator.initState with
        blocks := [⟨0, 10, false, 1⟩] } : Allocator).blocks,
      b.is_free = true → b.size < 20) ∧
    Allocator.allocate { Allocator.initState with blocks := [⟨0, 10, false, 1⟩] } 20
      = ({ Allocator.initState with
            blocks := [⟨0, 10, false, 1⟩]
            stats := { Allocator.initState.stats with
              allocation_failures := 0 + 1 } },
         AllocResult.outOfMemory) :=
  ⟨by decide, by decide, by decide,
    allocate_out_of_memory _ 20 (by decide) (by decide) (by decide)⟩
/-! ## Claim C7 -/


theorem sumSizes_cons (b : MemoryBlock) (l : List MemoryBlock) :
    sumSizes (b :: l) = b.size + sumSizes l := by
  simp [sumSizes]

theorem sumSizes_append (l1 l2 : List MemoryBlock) :
    sumSizes (l1 ++ l2) = sumSizes l1 + sumSizes l2 := by
  simp [sumSizes]

theorem sumSizes_reverse (l : List MemoryBlock) :
    sumSizes l.reverse = sumSizes l := by
  simp [sumSizes, List.map_reverse, List.sum_reverse]

/-- The per-node stats loop splits the chain total into used and free. -/
theorem sum_used_free (blocks : List MemoryBlock) :
    (usedSizes blocks).sum + (freeSizes blocks).sum = sumSizes blocks := by
  induction blocks with
  | nil => rfl
  | cons b rest ih =>
    by_cases hf : b.is_free = true <;>
      simp [usedSizes, freeSizes, sumSizes, List.filter_cons, hf] at ih ⊢ <;>
      omega

/-- Forward merging conserves the total size. -/
theorem mergeForward_sum :
    ∀ (l : List MemoryBlock) (b : MemoryBlock),
      (mergeForward b l).1.size + sumSizes (mergeForward b l).2
        = b.size + sumSizes l := by
  intro l
  induction l with
  | nil => intro b; rfl
  | cons n rest ih =>
    intro b
    by_cases hn : n.is_free = true
    · rw [mergeForward, if_pos hn, ih, sumSizes_cons]
      simp
      omega
    · rw [mergeForward, if_neg hn]

/-- Backward merging conserves the total size. -/
theorem mergeBackward_sum :
    ∀ (pr : List MemoryBlock) (b : MemoryBlock),
      sumSizes (mergeBackward pr b).1 + (mergeBackward pr b).2.size
        = sumSizes pr + b.size := by
  intro pr
  induction pr with
  | nil => intro b; simp [mergeBackward, sumSizes]
  | cons p rest ih =>
    intro b
    by_cases hp : p.is_free = true
    · rw [mergeBackward, if_pos hp, ih, sumSizes_cons]
      simp
      omega
    · rw [mergeBackward, if_neg hp]

/-- Coalescing conserves the total size. -/
theorem coalesceAt_sum (blocks : List MemoryBlock) (i : Nat)
    (h : i < blocks.length) :
    sumSizes (coalesceAt blocks i) = sumSizes blocks := by
  rw [coalesceAt]
  by_cases hf : (blocks.getD i default).is_free = true
  · simp only [hf, if_true]
    rw [sumSizes_append, sumSizes_cons, sumSizes_reverse]
    have h1 := mergeForward_sum (blocks.drop (i + 1)) (blocks.getD i default)
    have h2 := mergeBackward_sum (blocks.take i).reverse
      (mergeForward (blocks.getD i default) (blocks.drop (i + 1))).1
    rw [sumSizes_reverse] at h2
    have h3 : sumSizes blocks
        = sumSizes (blocks.take i)
          + ((blocks.getD i default).size + sumSizes (blocks.drop (i + 1))) := by
      conv_lhs => rw [eq_take_getD_drop blocks i default h]
      rw [sumSizes_append, sumSizes_cons]
    omega
  · simp only [hf]
    rfl

/-- The free-search only returns in-range, used, matching indices. -/
theorem findUsedGo_spec (id : Int) (blocks : List MemoryBlock) :
    ∀ (l : List MemoryBlock) (start : Nat), blocks.drop start = l →
      ∀ i, findUsedGo id l start = some i →
        i < blocks.length ∧ (blocks.getD i default).block_id = id ∧
          (blocks.getD i default).is_free = false := by
  intro l
  induction l with
  | nil => intro start _ i h; simp [findUsedGo] at h
  | cons b rest ih =>
    intro start hdrop i h
    have hb := getD_of_drop_cons hdrop
    have hrest := drop_succ_of_drop_cons hdrop
    by_cases hc : b.block_id = id ∧ b.is_free = false
    · rw [findUsedGo, if_pos hc] at h
      cases h
      exact ⟨lt_length_of_drop_cons hdrop, by rw [hb]; exact hc.1,
        by rw [hb]; exact hc.2⟩
    · rw [findUsedGo, if_neg hc] at h
      exact ih (start + 1) hrest i h

/-- Setting a node (same index) rewrites one summand. -/
theorem sumSizes_set (blocks : List MemoryBlock) (i : Nat) (x : MemoryBlock)
    (h : i < blocks.length) :
    sumSizes (blocks.set i x)
      = sumSizes (blocks.take i) + (x.size + sumSizes (blocks.drop (i + 1))) := by
  rw [List.set_eq_take_append_cons_drop, if_pos h, sumSizes_append, sumSizes_cons]

/-- C7: in every reachable allocator state,
`used_memory + free_memory = total_memory`. -/
theorem memory_conservation :
    ∀ ops : List AllocOp,
      (Allocator.run ops).stats.used_memory
        + (Allocator.run ops).stats.free_memory
        = (Allocator.run ops).stats.total_memory := by
  have main : ∀ ops : List AllocOp,
      sumSizes (Allocator.run ops).blocks = (Allocator.run ops).stats.total_memory ∧
      (Allocator.run ops).stats.used_memory + (Allocator.run ops).stats.free_memory
        = (Allocator.run ops).stats.total_memory := by
    refine run_induct (fun a =>
      sumSizes a.blocks = a.stats.total_memory ∧
      a.stats.used_memory + a.stats.free_memory = a.stats.total_memory) ?_ ?_
    · exact ⟨rfl, rfl⟩
    · intro a op hP
      obtain ⟨h1, h2⟩ := hP
      cases op with
      | initMem s =>
        exact ⟨by simp [Allocator.step, Allocator.initMemory, sumSizes],
          by simp [Allocator.step, Allocator.initMemory, AllocationStats.init]⟩
      | setStrat s => exact ⟨h1, h2⟩
      | alloc s =>
        simp only [Allocator.step, Allocator.allocate]
        by_cases hb : a.blocks = []
        · simp only [hb, if_true, if_pos rfl]
          exact ⟨by rw [← hb] at *; exact h1, h2⟩
        · simp only [if_neg hb]
          by_cases hs : s = 0
          · simp only [hs, if_true, if_pos rfl]
            exact ⟨h1, h2⟩
          · simp only [if_neg hs]
            cases hfind : findFreeBlockIdx a.blocks a.strategy s with
            | none => exact ⟨h1, h2⟩
            | some i =>
              obtain ⟨hlen, hfree, hfit⟩ := findFreeBlockIdx_selOK hfind
              have hdec : sumSizes a.blocks
                  = sumSizes (a.blocks.take i)
                    + ((a.blocks.getD i default).size
                      + sumSizes (a.blocks.drop (i + 1))) := by
                conv_lhs => rw [eq_take_getD_drop a.blocks i default hlen]
                rw [sumSizes_append, sumSizes_cons]
              have hsum : sumSizes
                  (if s < (a.blocks.getD i default).size then
                    a.blocks.take i ++
                      { a.blocks.getD i default with
                          size := s, is_free := false,
                          block_id := a.next_block_id } ::
                      (⟨(a.blocks.getD i default).address + s,
                        (a.blocks.getD i default).size - s, true, -1⟩ : MemoryBlock) ::
                      a.blocks.drop (i + 1)
                  else
                    a.blocks.set i
                      { a.blocks.getD i default with
                          is_free := false, block_id := a.next_block_id })
                  = sumSizes a.blocks := by
                by_cases hslt : s < (a.blocks.getD i default).size
                · rw [if_pos hslt, sumSizes_append, sumSizes_cons, sumSizes_cons, hdec]
                  have hx : ({ a.blocks.getD i default with
                      size := s, is_free := false,
                      block_id := a.next_block_id } : MemoryBlock).size = s := rfl
                  have hy : ((⟨(a.blocks.getD i default).address + s,
                      (a.blocks.getD i default).size - s, true, -1⟩ :
                        MemoryBlock)).size
                      = (a.blocks.getD i default).size - s := rfl
                  rw [hx, hy]
                  omega
                · rw [if_neg hslt, sumSizes_set a.blocks i _ hlen, hdec]
              constructor
              · simpa [Allocator.updateStats] using hsum.trans h1
              · simp only [Allocator.updateStats]
                rw [sum_used_free]
                exact hsum.trans h1
      | release id =>
        simp only [Allocator.step, Allocator.free]
        by_cases hb : a.blocks = []
        · simp only [hb, if_true, if_pos rfl]
          exact ⟨by rw [← hb] at *; exact h1, h2⟩
        · simp only [if_neg hb]
          cases hfind : findUsedIdx a.blocks id with
          | none => exact ⟨h1, h2⟩
          | some i =>
            have hspec := findUsedGo_spec id a.blocks a.blocks 0 (by simp) i hfind
            have hlen := hspec.1
            have hdec : sumSizes a.blocks
                = sumSizes (a.blocks.take i)
                  + ((a.blocks.getD i default).size
                    + sumSizes (a.blocks.drop (i + 1))) := by
              conv_lhs => rw [eq_take_getD_drop a.blocks i default hlen]
              rw [sumSizes_append, sumSizes_cons]
            have hset : sumSizes (a.blocks.set i
                { a.blocks.getD i default with is_free := true, block_id := -1 })
                = sumSizes a.blocks := by
              rw [sumSizes_set a.blocks i _ hlen, hdec]
            have hlen' : i < (a.blocks.set i
                { a.blocks.getD i default with
                    is_free := true, block_id := -1 }).length := by
              simpa using hlen
            have hco := coalesceAt_sum _ i hlen'
            constructor
            · simpa [Allocator.updateStats] using (hco.trans hset).trans h1
            · simp only [Allocator.updateStats]
              rw [sum_used_free]
              exact (hco.trans hset).trans h1
  intro ops
  exact (main ops).2
/-! ## Claim C1 -/


/-- Relation `NotBothFree` chains survive reversal (the relation is symmetric). -/
theorem chain'_NotBothFree_reverse (l : List MemoryBlock)
    (h : List.Chain' NotBothFree l) : List.Chain' NotBothFree l.reverse := by
  rw [List.chain'_reverse]
  exact h.imp fun a b hab => hab.elim Or.inr Or.inl

/-- Overwriting any node with a node related to everything keeps the
chain invariant. -/
theorem chain'_set_all :
    ∀ (l : List MemoryBlock) (i : Nat) (nb : MemoryBlock),
      List.Chain' NotBothFree l →
      (∀ x, NotBothFree x nb) → (∀ y, NotBothFree nb y) →
      List.Chain' NotBothFree (l.set i nb) := by
  intro l
  induction l with
  | nil => intro i nb _ _ _; simp
  | cons x rest ih =>
    intro i nb h hleft hright
    obtain ⟨hhead, htail⟩ := List.chain'_cons'.mp h
    cases i with
    | zero =>
      rw [List.set_cons_zero]
      exact List.chain'_cons'.mpr ⟨fun y _ => hright y, htail⟩
    | succ n =>
      rw [List.set_cons_succ]
      refine List.chain'_cons'.mpr ⟨?_, ih n nb htail hleft hright⟩
      intro y hy
      cases rest with
      | nil => simp at hy
      | cons r rrest =>
        cases n with
        | zero =>
          rw [List.set_cons_zero] at hy
          simp at hy
          subst hy
          exact hleft x
        | succ m =>
          rw [List.set_cons_succ] at hy
          simp at hy
          subst hy
          exact hhead r rfl

/-- Forward merging preserves the chain invariant on the remaining
suffix, whose head (if any) is not free. -/
theorem mergeForward_chain :
    ∀ (l : List MemoryBlock) (b : MemoryBlock),
      List.Chain' NotBothFree l →
      List.Chain' NotBothFree (mergeForward b l).2 ∧
        ∀ y ∈ (mergeForward b l).2.head?, y.is_free = false := by
  intro l
  induction l with
  | nil =>
    intro b _
    exact ⟨List.chain'_nil, by simp [mergeForward]⟩
  | cons n rest ih =>
    intro b h
    by_cases hn : n.is_free = true
    · rw [mergeForward, if_pos hn]
      exact ih _ (List.chain'_cons'.mp h).2
    · rw [mergeForward, if_neg hn]
      refine ⟨h, ?_⟩
      intro y hy
      simp at hy
      subst hy
      cases hv : n.is_free with
      | false => rfl
      | true => exact absurd hv hn

/-- Backward merging preserves the chain invariant on the remaining
reversed prefix, whose head (if any) is not free. -/
theorem mergeBackward_chain :
    ∀ (pr : List MemoryBlock) (b : MemoryBlock),
      List.Chain' NotBothFree pr →
      List.Chain' NotBothFree (mergeBackward pr b).1 ∧
        ∀ y ∈ (mergeBackward pr b).1.head?, y.is_free = false := by
  intro pr
  induction pr with
  | nil =>
    intro b _
    exact ⟨List.chain'_nil, by simp [mergeBackward]⟩
  | cons p rest ih =>
    intro b h
    by_cases hp : p.is_free = true
    · rw [mergeBackward, if_pos hp]
      exact ih _ (List.chain'_cons'.mp h).2
    · rw [mergeBackward, if_neg hp]
      refine ⟨h, ?_⟩
      intro y hy
      simp at hy
      subst hy
      cases hv : p.is_free with
      | false => rfl
      | true => exact absurd hv hp

/-- Coalescing a freed node restores the chain invariant. -/
theorem coalesceAt_chain (blocks : List MemoryBlock) (i : Nat)
    (hfree : (blocks.getD i default).is_free = true)
    (hpre : List.Chain' NotBothFree (blocks.take i))
    (hdrop : List.Chain' NotBothFree (blocks.drop (i + 1))) :
    List.Chain' NotBothFree (coalesceAt blocks i) := by
  simp only [coalesceAt, hfree, if_true]
  obtain ⟨hfchain, hfhead⟩ :=
    mergeForward_chain (blocks.drop (i + 1)) (blocks.getD i default) hdrop
  obtain ⟨hbchain, hbhead⟩ :=
    mergeBackward_chain ((blocks.take i).reverse)
      (mergeForward (blocks.getD i default) (blocks.drop (i + 1))).1
      (chain'_NotBothFree_reverse _ hpre)
  refine List.chain'_append.mpr
    ⟨chain'_NotBothFree_reverse _ hbchain, ?_, ?_⟩
  · refine List.chain'_cons'.mpr ⟨?_, hfchain⟩
    intro y hy
    exact Or.inr (hfhead y hy)
  · intro x hx y hy
    rw [List.getLast?_reverse] at hx
    simp at hy
    subst hy
    exact Or.inl (hbhead x hx)

/-- Splitting a selected free node into a used node followed by the free
remainder keeps the chain invariant. -/
theorem split_chain (blocks : List MemoryBlock) (i s : Nat) (id : Int)
    (hlen : i < blocks.length)
    (hfree : (blocks.getD i default).is_free = true)
    (h : List.Chain' NotBothFree blocks) :
    List.Chain' NotBothFree
      (blocks.take i ++
        { blocks.getD i default with
            size := s, is_free := false, block_id := id } ::
        (⟨(blocks.getD i default).address + s,
          (blocks.getD i default).size - s, true, -1⟩ : MemoryBlock) ::
        blocks.drop (i + 1)) := by
  have h' := h
  rw [eq_take_getD_drop blocks i default hlen] at h'
  obtain ⟨hpre, hmid, _⟩ := List.chain'_append.mp h'
  obtain ⟨hmhead, hmtail⟩ := List.chain'_cons'.mp hmid
  refine List.chain'_append.mpr ⟨hpre, ?_, ?_⟩
  · refine List.chain'_cons'.mpr ⟨?_, ?_⟩
    · intro y hy
      simp at hy
      subst hy
      exact Or.inl rfl
    · refine List.chain'_cons'.mpr ⟨?_, hmtail⟩
      intro y hy
      refine Or.inr ?_
      have := hmhead y hy
      cases this with
      | inl hl => rw [hfree] at hl; exact absurd hl (by simp)
      | inr hr => exact hr
  · intro x hx y hy
    simp at hy
    subst hy
    exact Or.inr rfl

/-- C1: in every reachable allocator state no two adjacent chain nodes
are both free — after every free, coalescing fully collapses adjacent
free runs. -/
theorem coalescing_invariant :
    ∀ ops : List AllocOp,
      List.Chain' NotBothFree (Allocator.run ops).blocks := by
  refine run_induct (fun a => List.Chain' NotBothFree a.blocks) ?_ ?_
  · simp [Allocator.initState]
  · intro a op hP
    cases op with
    | initMem s => simp [Allocator.step, Allocator.initMemory]
    | setStrat s => exact hP
    | alloc s =>
      simp only [Allocator.step, Allocator.allocate]
      by_cases hb : a.blocks = []
      · simp only [hb, if_true, if_pos rfl]
        exact List.chain'_nil
      · simp only [if_neg hb]
        by_cases hs : s = 0
        · simp only [hs, if_true, if_pos rfl]
          exact hP
        · simp only [if_neg hs]
          cases hfind : findFreeBlockIdx a.blocks a.strategy s with
          | none => exact hP
          | some i =>
            obtain ⟨hlen, hfree, hfit⟩ := findFreeBlockIdx_selOK hfind
            simp only [Allocator.updateStats]
            by_cases hslt : s < (a.blocks.getD i default).size
            · rw [if_pos hslt]
              exact split_chain a.blocks i s a.next_block_id hlen hfree hP
            · rw [if_neg hslt]
              exact chain'_set_all a.blocks i _ hP
                (fun x => Or.inr rfl) (fun y => Or.inl rfl)
    | release id =>
      simp only [Allocator.step, Allocator.free]
      by_cases hb : a.blocks = []
      · simp only [hb, if_true, if_pos rfl]
        exact List.chain'_nil
      · simp only [if_neg hb]
        cases hfind : findUsedIdx a.blocks id with
        | none => exact hP
        | some i =>
          have hspec := findUsedGo_spec id a.blocks a.blocks 0 (by simp) i hfind
          have hlen := hspec.1
          have h' := hP
          rw [eq_take_getD_drop a.blocks i default hlen] at h'
          obtain ⟨hpre, hmid, _⟩ := List.chain'_append.mp h'
          have hdropc := (List.chain'_cons'.mp hmid).2
          simp only [Allocator.updateStats]
          refine coalesceAt_chain _ i ?_ ?_ ?_
          · rw [getD_set_self a.blocks i _ default hlen]
          · rw [take_set]
            exact hpre
          · rw [drop_succ_set]
            exact hdropc
/-! ## Claim C6 -/


/-- The hit scan only returns in-range indices. -/
theorem findHitIdx_lt (tag : Nat) (set : List CacheLine) :
    ∀ (l : List CacheLine) (start : Nat), set.drop start = l →
      ∀ i, findHitIdx tag l start = some i → i < set.length := by
  intro l
  induction l with
  | nil => intro start _ i h; simp [findHitIdx] at h
  | cons x rest ih =>
    intro start hdrop i h
    by_cases hc : x.valid = true ∧ x.tag = tag
    · rw [findHitIdx, if_pos hc] at h
      cases h
      exact lt_length_of_drop_cons hdrop
    · rw [findHitIdx, if_neg hc] at h
      exact ih (start + 1) (drop_succ_of_drop_cons hdrop) i h

/-- C6: on a miss, `write_backs` grows by exactly one iff the victim line
is valid and dirty (clean or invalid evictions never pay); on a hit it is
unchanged.  A line becomes dirty exactly when written: a miss installs the
line with `dirty = isWrite`, and a hit leaves `dirty` at
`old dirty || isWrite`. -/
theorem write_back_accounting (c : CacheLevel) (address : Nat) (isWrite : Bool)
    (hsi : c.getSetIndex address < c.sets.length)
    (hvi : victimIdxOf c address
      < (c.sets.getD (c.getSetIndex address) []).length) :
    ((c.access address isWrite).1.stats.write_backs
      = c.stats.write_backs
        + (if (c.access address isWrite).2 = false
              ∧ (victimLineOf c address).valid = true
              ∧ (victimLineOf c address).dirty = true
           then 1 else 0)) ∧
    ((c.access address isWrite).2 = false →
      ((c.access address isWrite).1.sets.getD (c.getSetIndex address) []).getD
          (victimIdxOf c address) default
        = ⟨true, isWrite, c.getTag address, c.access_counter + 1⟩) ∧
    (∀ hitIdx,
      findHitIdx (c.getTag address) (c.sets.getD (c.getSetIndex address) []) 0
        = some hitIdx →
      ((c.access address isWrite).1.sets.getD (c.getSetIndex address) []).getD
          hitIdx default
        = { (c.sets.getD (c.getSetIndex address) []).getD hitIdx default with
            last_access := c.access_counter + 1
            dirty := ((c.sets.getD (c.getSetIndex address) []).getD
              hitIdx default).dirty || isWrite }) := by
  cases hscan : findHitIdx (c.getTag address)
      (c.sets.getD (c.getSetIndex address) []) 0 with
  | some j =>
    have hj : j < (c.sets.getD (c.getSetIndex address) []).length :=
      findHitIdx_lt _ _ _ 0 (by simp) j hscan
    refine ⟨?_, ?_, ?_⟩
    · simp only [CacheLevel.access, hscan]
      simp
    · intro hmiss
      simp only [CacheLevel.access, hscan] at hmiss
      simp at hmiss
    · intro hitIdx hIdx
      have hj' : j = hitIdx := Option.some.inj hIdx
      subst hj'
      simp only [CacheLevel.access, hscan]
      rw [getD_set_self _ _ _ _ hsi, getD_set_self _ _ _ _ hj]
  | none =>
    refine ⟨?_, ?_, ?_⟩
    · simp only [CacheLevel.access, hscan]
      simp only [victimLineOf, victimIdxOf]
      by_cases hwb :
          ((c.sets.getD (c.getSetIndex address) []).getD
            (findVictim (c.sets.getD (c.getSetIndex address) [])
              (c.fifo_queues.getD (c.getSetIndex address) [])
              c.policy).1 default).valid = true ∧
          ((c.sets.getD (c.getSetIndex address) []).getD
            (findVictim (c.sets.getD (c.getSetIndex address) [])
              (c.fifo_queues.getD (c.getSetIndex address) [])
              c.policy).1 default).dirty = true
      · rw [if_pos hwb, if_pos ⟨trivial, hwb⟩]
      · rw [if_neg hwb, if_neg (fun hc => hwb hc.2)]
        rfl
    · intro _
      simp only [CacheLevel.access, hscan]
      rw [getD_set_self _ _ _ _ hsi]
      exact getD_set_self _ _ _ _ hvi
    · intro hitIdx hIdx
      exact absurd hIdx (by simp)

/-- Witness for the write-back claim: a direct-mapped single-line level
holding a dirty line, then accessing a conflicting address. -/
theorem write_back_accounting_witness :
    (((CacheLevel.make "L1" 16 16 1 ReplacementPolicy.LRU 1).access 0
        true).1.access 16 false).1.stats.write_backs
      = ((CacheLevel.make "L1" 16 16 1 ReplacementPolicy.LRU 1).access 0
          true).1.stats.write_backs
        + (if (((CacheLevel.make "L1" 16 16 1 ReplacementPolicy.LRU 1).access 0
                true).1.access 16 false).2 = false
              ∧ (victimLineOf ((CacheLevel.make "L1" 16 16 1
                  ReplacementPolicy.LRU 1).access 0 true).1 16).valid = true
              ∧ (victimLineOf ((CacheLevel.make "L1" 16 16 1
                  ReplacementPolicy.LRU 1).access 0 true).1 16).dirty = true
           then 1 else 0) ∧
    (((CacheLevel.make "L1" 16 16 1 ReplacementPolicy.LRU 1).access 0
        true).1.access 16 false).2 = false ∧
    (victimLineOf ((CacheLevel.make "L1" 16 16 1
        ReplacementPolicy.LRU 1).access 0 true).1 16).dirty = true :=
  ⟨(write_back_accounting ((CacheLevel.make "L1" 16 16 1
      ReplacementPolicy.LRU 1).access 0 true).1 16 false (by decide)
      (by decide)).1,
   by decide, by decide⟩
/-! ## Claim C5 -/


/-- The body of `CacheLevel::access` only rewrites the target set, by `setAccess`. -/
theorem access_sets (c : CacheLevel) (address : Nat) (w : Bool) :
    (c.access address w).1.sets
      = c.sets.set (c.getSetIndex address)
          (setAccess c.policy (c.getTag address) (c.access_counter + 1) w
            (c.sets.getD (c.getSetIndex address) [])
            (c.fifo_queues.getD (c.getSetIndex address) [])).1 := by
  simp only [CacheLevel.access, setAccess]
  cases hscan : findHitIdx (c.getTag address)
      (c.sets.getD (c.getSetIndex address) []) 0 <;> rfl

/-- The body of `CacheLevel::access` updates the FIFO queue of the target set only on
a miss, by `setAccess`. -/
theorem access_queues (c : CacheLevel) (address : Nat) (w : Bool) :
    (c.access address w).1.fifo_queues
      = (if (setAccess c.policy (c.getTag address) (c.access_counter + 1) w
            (c.sets.getD (c.getSetIndex address) [])
            (c.fifo_queues.getD (c.getSetIndex address) [])).2.2 = true
         then c.fifo_queues
         else c.fifo_queues.set (c.getSetIndex address)
            (setAccess c.policy (c.getTag address) (c.access_counter + 1) w
              (c.sets.getD (c.getSetIndex address) [])
              (c.fifo_queues.getD (c.getSetIndex address) [])).2.1) := by
  simp only [CacheLevel.access, setAccess]
  cases hscan : findHitIdx (c.getTag address)
      (c.sets.getD (c.getSetIndex address) []) 0 <;> simp

/-- The hit flag of `CacheLevel::access` agrees with `setAccess`. -/
theorem access_flag (c : CacheLevel) (address : Nat) (w : Bool) :
    (c.access address w).2
      = (setAccess c.policy (c.getTag address) (c.access_counter + 1) w
          (c.sets.getD (c.getSetIndex address) [])
          (c.fifo_queues.getD (c.getSetIndex address) [])).2.2 := by
  simp only [CacheLevel.access, setAccess]
  cases hscan : findHitIdx (c.getTag address)
      (c.sets.getD (c.getSetIndex address) []) 0 <;> rfl

/-- The body of `CacheLevel::access` advances the counter and never changes the
geometry or the policy. -/
theorem access_fields (c : CacheLevel) (address : Nat) (w : Bool) :
    (c.access address w).1.access_counter = c.access_counter + 1 ∧
    (c.access address w).1.block_size = c.block_size ∧
    (c.access address w).1.num_sets = c.num_sets ∧
    (c.access address w).1.policy = c.policy ∧
    (c.access address w).1.fifo_queues.length = c.fifo_queues.length ∧
    (c.access address w).1.sets.length = c.sets.length := by
  simp only [CacheLevel.access]
  cases hscan : findHitIdx (c.getTag address)
      (c.sets.getD (c.getSetIndex address) []) 0 <;>
    exact ⟨rfl, rfl, rfl, rfl, by simp, by simp⟩

/-- Set index of any address is stable across accesses. -/
theorem access_getSetIndex (c : CacheLevel) (address : Nat) (w : Bool)
    (x : Nat) :
    (c.access address w).1.getSetIndex x = c.getSetIndex x := by
  rw [CacheLevel.getSetIndex, CacheLevel.getSetIndex,
    (access_fields c address w).2.1, (access_fields c address w).2.2.1]

/-- Tag of any address is stable across accesses. -/
theorem access_getTag (c : CacheLevel) (address : Nat) (w : Bool) (x : Nat) :
    (c.access address w).1.getTag x = c.getTag x := by
  rw [CacheLevel.getTag, CacheLevel.getTag,
    (access_fields c address w).2.1, (access_fields c address w).2.2.1]

/-- The default-constructed cache line, explicitly. -/
theorem default_cacheline : (default : CacheLine) = ⟨false, false, 0, 0⟩ := rfl

/-- A hit never touches the FIFO queue. -/
theorem setAccess_hit_queue (pol : ReplacementPolicy) (tag counter : Nat)
    (w : Bool) (set : List CacheLine) (queue : List Nat)
    (h : (setAccess pol tag counter w set queue).2.2 = true) :
    (setAccess pol tag counter w set queue).2.1 = queue := by
  rw [setAccess] at h ⊢
  cases hscan : findHitIdx tag set 0 with
  | some i => rfl
  | none =>
    rw [hscan] at h
    exact absurd h (by simp)


/-- Transport a view along a computation of its abstract state. -/
theorem LevelView.cast {c : CacheLevel} {bs0 ns0 : Nat}
    {pol : ReplacementPolicy} {s : Nat}
    {v v' : List CacheLine × List Nat × Nat}
    (h : LevelView c bs0 ns0 pol s v) (hv : v = v') :
    LevelView c bs0 ns0 pol s v' := hv ▸ h

/-- One read access to an address of set `s` transforms the view by
`setAccess`. -/
theorem LevelView.step {c : CacheLevel} {bs0 ns0 : Nat}
    {pol : ReplacementPolicy} {s : Nat} {v : List CacheLine × List Nat × Nat}
    (h : LevelView c bs0 ns0 pol s v) (x : Nat)
    (hx : (x >>> floorLog2 bs0) % ns0 = s) :
    LevelView (c.access x false).1 bs0 ns0 pol s
      ((setAccess pol (x >>> (floorLog2 bs0 + floorLog2 ns0)) (v.2.2 + 1) false
          v.1 v.2.1).1,
       (setAccess pol (x >>> (floorLog2 bs0 + floorLog2 ns0)) (v.2.2 + 1) false
          v.1 v.2.1).2.1,
       v.2.2 + 1) := by
  have hsi : c.getSetIndex x = s := by
    rw [CacheLevel.getSetIndex, h.bsEq, h.nsEq, hx]
  have htg : c.getTag x = x >>> (floorLog2 bs0 + floorLog2 ns0) := by
    rw [CacheLevel.getTag, h.bsEq, h.nsEq]
  have hf := access_fields c x false
  refine ⟨hf.2.1.trans h.bsEq, hf.2.2.1.trans h.nsEq, hf.2.2.2.1.trans h.polEq,
    ?_, ?_, ?_, ?_, ?_⟩
  · rw [hf.1, h.cntEq]
  · rw [hf.2.2.2.2.2]; exact h.setsLt
  · rw [hf.2.2.2.2.1]; exact h.queuesLt
  · rw [access_sets, hsi, htg, h.cntEq, h.setEq, h.queueEq, h.polEq,
      getD_set_self _ _ _ _ h.setsLt]
  · rw [access_queues, hsi, htg, h.cntEq, h.setEq, h.queueEq, h.polEq]
    by_cases hflag : (setAccess pol (x >>> (floorLog2 bs0 + floorLog2 ns0))
        (v.2.2 + 1) false v.1 v.2.1).2.2 = true
    · rw [if_pos hflag, h.queueEq]
      exact (setAccess_hit_queue _ _ _ _ _ _ hflag).symm
    · rw [if_neg hflag, getD_set_self _ _ _ _ h.queuesLt]

/-- C5: on any 2-way set-associative level starting empty, after the
access sequence A, B, A, C (three distinct tags mapping to the same set)
LRU evicts B's line (A and C stay resident) while FIFO evicts A's line
(B and C stay resident) — the two policies leave different resident
tags. -/
theorem lru_fifo_divergence (nm : String) (sz bs lat : Nat) (a b c : Nat)
    (hns : 0 < sz / bs / 2)
    (hsb : (b >>> floorLog2 bs) % (sz / bs / 2)
      = (a >>> floorLog2 bs) % (sz / bs / 2))
    (hsc : (c >>> floorLog2 bs) % (sz / bs / 2)
      = (a >>> floorLog2 bs) % (sz / bs / 2))
    (htab : a >>> (floorLog2 bs + floorLog2 (sz / bs / 2))
      ≠ b >>> (floorLog2 bs + floorLog2 (sz / bs / 2)))
    (htac : a >>> (floorLog2 bs + floorLog2 (sz / bs / 2))
      ≠ c >>> (floorLog2 bs + floorLog2 (sz / bs / 2)))
    (htbc : b >>> (floorLog2 bs + floorLog2 (sz / bs / 2))
      ≠ c >>> (floorLog2 bs + floorLog2 (sz / bs / 2))) :
    residentTags
        (((((CacheLevel.make nm sz bs 2 ReplacementPolicy.LRU lat).access a
          false).1.access b false).1.access a false).1.access c false).1
        ((a >>> floorLog2 bs) % (sz / bs / 2))
      = [a >>> (floorLog2 bs + floorLog2 (sz / bs / 2)),
         c >>> (floorLog2 bs + floorLog2 (sz / bs / 2))] ∧
    residentTags
        (((((CacheLevel.make nm sz bs 2 ReplacementPolicy.FIFO lat).access a
          false).1.access b false).1.access a false).1.access c false).1
        ((a >>> floorLog2 bs) % (sz / bs / 2))
      = [c >>> (floorLog2 bs + floorLog2 (sz / bs / 2)),
         b >>> (floorLog2 bs + floorLog2 (sz / bs / 2))] ∧
    ([a >>> (floorLog2 bs + floorLog2 (sz / bs / 2)),
      c >>> (floorLog2 bs + floorLog2 (sz / bs / 2))] : List Nat)
      ≠ [c >>> (floorLog2 bs + floorLog2 (sz / bs / 2)),
         b >>> (floorLog2 bs + floorLog2 (sz / bs / 2))] := by
  have hslt : (a >>> floorLog2 bs) % (sz / bs / 2) < sz / bs / 2 :=
    Nat.mod_lt _ hns
  have h0L : LevelView (CacheLevel.make nm sz bs 2 ReplacementPolicy.LRU lat)
      bs (sz / bs / 2) ReplacementPolicy.LRU
      ((a >>> floorLog2 bs) % (sz / bs / 2))
      (List.replicate 2 default, [], 0) := by
    refine ⟨rfl, rfl, rfl, rfl, ?_, ?_, ?_, ?_⟩
    · simpa [CacheLevel.make] using hslt
    · simpa [CacheLevel.make] using hslt
    · simp only [CacheLevel.make]
      exact getD_replicate hslt _ _
    · simp only [CacheLevel.make]
      exact getD_replicate hslt _ _
  have h1L : LevelView
      ((CacheLevel.make nm sz bs 2 ReplacementPolicy.LRU lat).access a false).1
      bs (sz / bs / 2) ReplacementPolicy.LRU
      ((a >>> floorLog2 bs) % (sz / bs / 2))
      ([⟨true, false, a >>> (floorLog2 bs + floorLog2 (sz / bs / 2)), 1⟩,
        ⟨false, false, 0, 0⟩], [], 1) :=
    (h0L.step a rfl).cast (by
      simp [setAccess, findHitIdx, findInvalidIdx, findVictim, default_cacheline])
  have h2L : LevelView
      ((((CacheLevel.make nm sz bs 2 ReplacementPolicy.LRU lat).access a
        false).1).access b false).1
      bs (sz / bs / 2) ReplacementPolicy.LRU
      ((a >>> floorLog2 bs) % (sz / bs / 2))
      ([⟨true, false, a >>> (floorLog2 bs + floorLog2 (sz / bs / 2)), 1⟩,
        ⟨true, false, b >>> (floorLog2 bs + floorLog2 (sz / bs / 2)), 2⟩],
       [], 2) :=
    (h1L.step b hsb).cast (by
      simp [setAccess, findHitIdx, findInvalidIdx, findVictim, htab])
  have h3L : LevelView
      ((((((CacheLevel.make nm sz bs 2 ReplacementPolicy.LRU lat).access a
        false).1).access b false).1).access a false).1
      bs (sz / bs / 2) ReplacementPolicy.LRU
      ((a >>> floorLog2 bs) % (sz / bs / 2))
      ([⟨true, false, a >>> (floorLog2 bs + floorLog2 (sz / bs / 2)), 3⟩,
        ⟨true, false, b >>> (floorLog2 bs + floorLog2 (sz / bs / 2)), 2⟩],
       [], 3) :=
    (h2L.step a rfl).cast (by
      simp [setAccess, findHitIdx, findInvalidIdx, findVictim])
  have h4L : LevelView
      ((((((((CacheLevel.make nm sz bs 2 ReplacementPolicy.LRU lat).access a
        false).1).access b false).1).access a false).1).access c false).1
      bs (sz / bs / 2) ReplacementPolicy.LRU
      ((a >>> floorLog2 bs) % (sz / bs / 2))
      ([⟨true, false, a >>> (floorLog2 bs + floorLog2 (sz / bs / 2)), 3⟩,
        ⟨true, false, c >>> (floorLog2 bs + floorLog2 (sz / bs / 2)), 4⟩],
       [], 4) :=
    (h3L.step c hsc).cast (by
      simp [setAccess, findHitIdx, findInvalidIdx, findVictim, lruVictim,
        lruVictimGo, htac, htbc])
  have h0F : LevelView (CacheLevel.make nm sz bs 2 ReplacementPolicy.FIFO lat)
      bs (sz / bs / 2) ReplacementPolicy.FIFO
      ((a >>> floorLog2 bs) % (sz / bs / 2))
      (List.replicate 2 default, [], 0) := by
    refine ⟨rfl, rfl, rfl, rfl, ?_, ?_, ?_, ?_⟩
    · simpa [CacheLevel.make] using hslt
    · simpa [CacheLevel.make] using hslt
    · simp only [CacheLevel.make]
      exact getD_replicate hslt _ _
    · simp only [CacheLevel.make]
      exact getD_replicate hslt _ _
  have h1F : LevelView
      ((CacheLevel.make nm sz bs 2 ReplacementPolicy.FIFO lat).access a false).1
      bs (sz / bs / 2) ReplacementPolicy.FIFO
      ((a >>> floorLog2 bs) % (sz / bs / 2))
      ([⟨true, false, a >>> (floorLog2 bs + floorLog2 (sz / bs / 2)), 1⟩,
        ⟨false, false, 0, 0⟩], [0], 1) :=
    (h0F.step a rfl).cast (by
      simp [setAccess, findHitIdx, findInvalidIdx, findVictim, default_cacheline])
  have h2F : LevelView
      ((((CacheLevel.make nm sz bs 2 ReplacementPolicy.FIFO lat).access a
        false).1).access b false).1
      bs (sz / bs / 2) ReplacementPolicy.FIFO
      ((a >>> floorLog2 bs) % (sz / bs / 2))
      ([⟨true, false, a >>> (floorLog2 bs + floorLog2 (sz / bs / 2)), 1⟩,
        ⟨true, false, b >>> (floorLog2 bs + floorLog2 (sz / bs / 2)), 2⟩],
       [0, 1], 2) :=
    (h1F.step b hsb).cast (by
      simp [setAccess, findHitIdx, findInvalidIdx, findVictim, htab])
  have h3F : LevelView
      ((((((CacheLevel.make nm sz bs 2 ReplacementPolicy.FIFO lat).access a
        false).1).access b false).1).access a false).1
      bs (sz / bs / 2) ReplacementPolicy.FIFO
      ((a >>> floorLog2 bs) % (sz / bs / 2))
      ([⟨true, false, a >>> (floorLog2 bs + floorLog2 (sz / bs / 2)), 3⟩,
        ⟨true, false, b >>> (floorLog2 bs + floorLog2 (sz / bs / 2)), 2⟩],
       [0, 1], 3) :=
    (h2F.step a rfl).cast (by
      simp [setAccess, findHitIdx, findInvalidIdx, findVictim])
  have h4F : LevelView
      ((((((((CacheLevel.make nm sz bs 2 ReplacementPolicy.FIFO lat).access a
        false).1).access b false).1).access a false).1).access c false).1
      bs (sz / bs / 2) ReplacementPolicy.FIFO
      ((a >>> floorLog2 bs) % (sz / bs / 2))
      ([⟨true, false, c >>> (floorLog2 bs + floorLog2 (sz / bs / 2)), 4⟩,
        ⟨true, false, b >>> (floorLog2 bs + floorLog2 (sz / bs / 2)), 2⟩],
       [1, 0], 4) :=
    (h3F.step c hsc).cast (by
      simp [setAccess, findHitIdx, findInvalidIdx, findVictim, htac, htbc])
  refine ⟨?_, ?_, ?_⟩
  · rw [residentTags, h4L.setEq]
    simp
  · rw [residentTags, h4F.setEq]
    simp
  · intro heq
    rw [List.cons.injEq] at heq
    exact htac heq.1

/-- Witness for the LRU/FIFO divergence on a 64-byte, 16-byte-block,
2-way level with addresses 0, 32, 64. -/
theorem lru_fifo_divergence_witness :
    (0 : Nat) < 64 / 16 / 2 ∧
    ((0 : Nat) >>> (floorLog2 16 + floorLog2 (64 / 16 / 2))
      ≠ (32 : Nat) >>> (floorLog2 16 + floorLog2 (64 / 16 / 2))) ∧
    residentTags
        (((((CacheLevel.make "L1" 64 16 2 ReplacementPolicy.LRU 1).access 0
          false).1.access 32 false).1.access 0 false).1.access 64 false).1
        ((0 >>> floorLog2 16) % (64 / 16 / 2))
      = [0 >>> (floorLog2 16 + floorLog2 (64 / 16 / 2)),
         64 >>> (floorLog2 16 + floorLog2 (64 / 16 / 2))] ∧
    residentTags
        (((((CacheLevel.make "L1" 64 16 2 ReplacementPolicy.FIFO 1).access 0
          false).1.access 32 false).1.access 0 false).1.access 64 false).1
        ((0 >>> floorLog2 16) % (64 / 16 / 2))
      = [64 >>> (floorLog2 16 + floorLog2 (64 / 16 / 2)),
         32 >>> (floorLog2 16 + floorLog2 (64 / 16 / 2))] :=
  ⟨by decide, by decide,
   (lru_fifo_divergence "L1" 64 16 1 0 32 64 (by decide) (by decide)
      (by decide) (by decide) (by decide) (by decide)).1,
   (lru_fifo_divergence "L1" 64 16 1 0 32 64 (by decide) (by decide)
      (by decide) (by decide) (by decide) (by decide)).2.1⟩
